import Mathlib

/-!
# Verification of the glib-ringbuf ring buffer (src/ringbuf.c)

Shallow embedding of the ring buffer implemented in `src/ringbuf.c`.

The C structure `_ringbuf_t` holds a byte buffer `buf` mapped twice
back-to-back (the virtual-memory double-mapping trick of `ringbuf_new`),
cursors `head` and `tail` of C type `gsize` (64-bit unsigned), the mapping
size `buffer_size`, and the mode flag `block_on_full`.  Because the same
physical page backs offsets `o` and `o + buffer_size`, a byte access the C
code performs at `buf + o` (for `o` inside the mapped `2 * buffer_size`
window) reads or writes physical byte `o % buffer_size`; the model indexes
the physical storage directly through that modulus.

`gsize` arithmetic is modelled on `Nat` with explicit reduction modulo
`2 ^ 64` (`gadd`, `gsub`) at every point where the C code adds to or
subtracts from a `gsize` value.

Blocking (`g_cond_wait` loops) is modelled by partiality: an operation
returns `none` when its wait predicate does not hold in the current state,
i.e. when the calling thread would block until some other thread changes
the state (for `ringbuf_timed_pop`, `none` is the timeout return `NULL`).
The `some` result is the state transformation the operation performs once
its wait predicate holds.  Condition-variable signalling itself has no
effect on the fields and is not represented.
-/

/-- Width of the C `gsize` type: arithmetic is modulo `2 ^ 64`. -/
def gsizeMod : Nat := 2 ^ 64

/-- Addition of two `gsize` values. -/
def gadd (a b : Nat) : Nat := (a + b) % gsizeMod

/-- Subtraction `a - b` of two `gsize` values (wraps around on underflow,
as C unsigned subtraction does). -/
def gsub (a b : Nat) : Nat := (a + (gsizeMod - b % gsizeMod)) % gsizeMod

/-- The state of `struct _ringbuf_t` (src/ringbuf.c lines 17-25): the
byte storage (physical content, indexed modulo `buffer_size`), the two
cursors, the mapping size and the blocking mode.  The file descriptor,
mutex, condition variables and the unused message queue carry no
byte-level state and are omitted. -/
structure RB where
  buf : Nat → Nat
  head : Nat
  tail : Nat
  buffer_size : Nat
  block_on_full : Bool

/-- `memcpy` of the list `data` into the double-mapped region at logical
offset `off`: byte `k` of `data` lands on physical byte `(off + k) %
size`, later bytes overwriting earlier ones exactly as the sequential
copy does. -/
def memWrite (size : Nat) : (Nat → Nat) → Nat → List Nat → (Nat → Nat)
  | buf, _, [] => buf
  | buf, off, b :: rest =>
      memWrite size (fun i => if i = off % size then b else buf i) (off + 1) rest

/-- `memcpy` of `n` bytes out of the double-mapped region starting at
logical offset `off`. -/
def memRead (size : Nat) (buf : Nat → Nat) (off n : Nat) : List Nat :=
  (List.range n).map fun j => buf ((off + j) % size)

/-- `ringbuf_bytes_free` (src/ringbuf.c lines 140-149, 155-161): free
space derived from the cursors; the mutex-taking wrapper computes the
same value as the `_unlocked` variant. -/
def ringbuf_bytes_free (rb : RB) : Nat :=
  if rb.tail ≤ rb.head then gsub rb.buffer_size (rb.head - rb.tail)
  else rb.tail - rb.head

/-- `ringbuf_bytes_used` (src/ringbuf.c lines 151-153, 163-165). -/
def ringbuf_bytes_used (rb : RB) : Nat :=
  gsub rb.buffer_size (ringbuf_bytes_free rb)

/-- `ringbuf_buffer_size` (src/ringbuf.c lines 101-103). -/
def ringbuf_buffer_size (rb : RB) : Nat := rb.buffer_size

/-- `ringbuf_is_full` (src/ringbuf.c lines 167-169). -/
def ringbuf_is_full (rb : RB) : Bool := ringbuf_bytes_free rb == 0

/-- `ringbuf_is_empty` (src/ringbuf.c lines 171-173): the C body is
`ringbuf_bytes_free(rb) == ringbuf_bytes_free(rb)`, a comparison of the
same quantity with itself. -/
def ringbuf_is_empty (rb : RB) : Bool :=
  ringbuf_bytes_free rb == ringbuf_bytes_free rb

/-- `ringbuf_reset` (src/ringbuf.c lines 105-109). -/
def ringbuf_reset (rb : RB) : RB := { rb with head := 0, tail := 0 }

/-- The size rounding of `ringbuf_new` (src/ringbuf.c lines 36-47):
requested sizes that are not a page multiple are rounded, sizes below one
page become two pages; page multiples (`s % page_size == 0`) pass through
unchanged. -/
def ringbuf_new_size (page_size size : Nat) : Nat :=
  if size % page_size ≠ 0 then
    if size < page_size then 2 * page_size
    else (size / page_size + 1) * page_size
  else size

/-- `ringbuf_push` (src/ringbuf.c lines 226-244): in blocking mode wait
until `bytes_free ≥ size`, then `memcpy` at `head` and advance `head`;
in non-blocking mode copy and advance unconditionally.  There is no size
validation, no eviction of old data and no normalization of `head`. -/
def ringbuf_push (dst : RB) (src : List Nat) : Option RB :=
  if dst.block_on_full ∧ ringbuf_bytes_free dst < src.length then none
  else some { dst with
    buf := memWrite dst.buffer_size dst.buf dst.head src,
    head := gadd dst.head src.length }

/-- `ringbuf_pop` (src/ringbuf.c lines 246-269): wait until
`bytes_used ≥ size`, `memcpy` out at `tail`, advance `tail`, and if
`tail` reached `buffer_size` subtract `buffer_size` from both cursors. -/
def ringbuf_pop (src : RB) (size : Nat) : Option (List Nat × RB) :=
  if ringbuf_bytes_used src < size then none
  else
    let out := memRead src.buffer_size src.buf src.tail size
    let t := gadd src.tail size
    if src.buffer_size ≤ t then
      some (out, { src with head := gsub src.head src.buffer_size,
                            tail := gsub t src.buffer_size })
    else
      some (out, { src with tail := t })

/-- `ringbuf_timed_pop` (src/ringbuf.c lines 271-298): the wait loop only
runs `while (tail == head)`; timeout (`none`) can occur only on an empty
buffer.  On a non-empty buffer it copies `size` bytes and advances `tail`
by `size` unconditionally, then normalizes as `ringbuf_pop` does. -/
def ringbuf_timed_pop (src : RB) (size : Nat) : Option (List Nat × RB) :=
  if src.tail = src.head then none
  else
    let out := memRead src.buffer_size src.buf src.tail size
    let t := gadd src.tail size
    if src.buffer_size ≤ t then
      some (out, { src with head := gsub src.head src.buffer_size,
                            tail := gsub t src.buffer_size })
    else
      some (out, { src with tail := t })

/-- `ringbuf_move_tail` (src/ringbuf.c lines 191-212): wait until
`bytes_used ≥ size`, advance `tail`, normalize; no copy. -/
def ringbuf_move_tail (rb : RB) (size : Nat) : Option RB :=
  if ringbuf_bytes_used rb < size then none
  else
    let t := gadd rb.tail size
    if rb.buffer_size ≤ t then
      some { rb with head := gsub rb.head rb.buffer_size,
                     tail := gsub t rb.buffer_size }
    else
      some { rb with tail := t }

/-- `ringbuf_move_head` (src/ringbuf.c lines 214-224): advances `head`
unconditionally — no wait, no guard, no normalization. -/
def ringbuf_move_head (rb : RB) (size : Nat) : RB :=
  { rb with head := gadd rb.head size }

/-- `ringbuf_reserve` (src/ringbuf.c lines 333-349): same blocking
preamble as `ringbuf_push`, then returns the current `head` offset (the
start of the reserved view) and advances `head` by `size` without
copying anything. -/
def ringbuf_reserve (rb : RB) (size : Nat) : Option (Nat × RB) :=
  if rb.block_on_full ∧ ringbuf_bytes_free rb < size then none
  else some (rb.head, { rb with head := gadd rb.head size })

/-- `ringbuf_commit` (src/ringbuf.c lines 351-355): takes the mutex,
signals `readable`, releases the mutex; no field is touched. -/
def ringbuf_commit (rb : RB) : RB := rb

/-- `ringbuf_direct_copy` (src/ringbuf.c lines 300-331): waits until
`src` is non-empty (`tail != head`), in blocking mode additionally until
`dst` has `size` bytes free, then copies `size` bytes from `src`'s tail
region into `dst`'s head region, advances `dst.head` and `src.tail`, and
normalizes `src` only. -/
def ringbuf_direct_copy (src dst : RB) (size : Nat) : Option (RB × RB) :=
  if src.tail = src.head then none
  else if dst.block_on_full ∧ ringbuf_bytes_free dst < size then none
  else
    let data := memRead src.buffer_size src.buf src.tail size
    let dst' : RB := { dst with
      buf := memWrite dst.buffer_size dst.buf dst.head data,
      head := gadd dst.head size }
    let t := gadd src.tail size
    let src' : RB :=
      if src.buffer_size ≤ t then
        { src with head := gsub src.head src.buffer_size,
                   tail := gsub t src.buffer_size }
      else { src with tail := t }
    some (src', dst')

/-- Mutex-acquisition order of `ringbuf_direct_copy` (src/ringbuf.c lines
301-302), identifying each buffer by a stable id: the code locks
`src->mutex` first and `dst->mutex` second, i.e. always in call-argument
order. -/
def direct_copy_lock_order (src dst : Nat) : List Nat := [src, dst]

/-- The cursor invariant stated by the specification:
`0 ≤ head − tail ≤ capacity`, read over unsigned cursors as
`tail ≤ head` together with `head − tail ≤ buffer_size`. -/
def invariant (rb : RB) : Prop :=
  rb.tail ≤ rb.head ∧ rb.head - rb.tail ≤ rb.buffer_size

instance (rb : RB) : Decidable (invariant rb) := by
  unfold invariant; infer_instance

/-- Well-formedness of a reachable state: the cursor invariant, a
normalized tail (`tail < buffer_size`, as `ringbuf_new`, `ringbuf_reset`
and every tail-advancing operation establish), a positive size and a
size small enough that cursor arithmetic cannot wrap `gsize`. -/
def wf (rb : RB) : Prop :=
  0 < rb.buffer_size ∧ rb.tail < rb.buffer_size ∧ rb.tail ≤ rb.head ∧
    rb.head - rb.tail ≤ rb.buffer_size ∧ 2 * rb.buffer_size ≤ gsizeMod

/-- The logical contents of the buffer: the unread bytes, in FIFO order,
from `tail` to `head`. -/
def contents (rb : RB) : List Nat :=
  memRead rb.buffer_size rb.buf rb.tail (rb.head - rb.tail)

/-- An empty ring buffer of mapping size `c` as `ringbuf_new`/`ringbuf_reset`
leave it: both cursors zero, storage contents arbitrary. -/
def emptyRB (c : Nat) (b : Bool) (f : Nat → Nat) : RB :=
  { buf := f, head := 0, tail := 0, buffer_size := c, block_on_full := b }

/-- A sequence of pushes, each of which must proceed without blocking. -/
def pushAll (rb : RB) (xs : List (List Nat)) : Option RB :=
  List.foldlM ringbuf_push rb xs

/-- A sequence of pops of the given sizes, collecting the popped bytes. -/
def popAll (rb : RB) : List Nat → Option (List (List Nat))
  | [] => some []
  | n :: rest =>
      (ringbuf_pop rb n).bind fun p => (popAll p.2 rest).map (p.1 :: ·)

/-- A concrete capacity-16 buffer holding one unread byte
(`head = 1`, `tail = 0`), storage preset to the identity pattern. -/
def rbOneByte : RB :=
  { buf := fun i => i, head := 1, tail := 0, buffer_size := 16, block_on_full := true }

/-- A concrete full capacity-16 buffer (`head = 16`, `tail = 0`) in
non-blocking mode. -/
def rbFull16 : RB :=
  { buf := fun _ => 0, head := 16, tail := 0, buffer_size := 16, block_on_full := false }

/-- A concrete empty capacity-16 buffer in non-blocking mode whose
storage is preset to the byte 99 everywhere. -/
def rb99 : RB :=
  { buf := fun _ => 99, head := 0, tail := 0, buffer_size := 16, block_on_full := false }

/-! ## Arithmetic facts about `gsize` operations -/

theorem gadd_eq {a b : Nat} (h : a + b < gsizeMod) : gadd a b = a + b :=
  Nat.mod_eq_of_lt h

theorem gsub_eq {a b : Nat} (hb : b ≤ a) (ha : a < gsizeMod) : gsub a b = a - b := by
  have hbW : b < gsizeMod := lt_of_le_of_lt hb ha
  unfold gsub
  rw [Nat.mod_eq_of_lt hbW]
  have h1 : a + (gsizeMod - b) = gsizeMod + (a - b) := by omega
  rw [h1, Nat.add_mod_left, Nat.mod_eq_of_lt (by omega)]

/-! ## Facts about the double-mapped memory model -/

theorem memRead_length (s : Nat) (buf : Nat → Nat) (off n : Nat) :
    (memRead s buf off n).length = n := by simp [memRead]

theorem memRead_zero (s : Nat) (buf : Nat → Nat) (off : Nat) :
    memRead s buf off 0 = [] := rfl

theorem memRead_succ (s : Nat) (buf : Nat → Nat) (off n : Nat) :
    memRead s buf off (n + 1) = buf (off % s) :: memRead s buf (off + 1) n := by
  unfold memRead
  rw [List.range_succ_eq_map, List.map_cons, List.map_map]
  refine congrArg₂ List.cons (by simp) (List.map_congr_left ?_)
  intro a _
  have h : off + (a + 1) = off + 1 + a := by omega
  simp [Function.comp, Nat.succ_eq_add_one, h]

theorem memRead_append (s : Nat) (buf : Nat → Nat) (n : Nat) :
    ∀ (off m : Nat),
    memRead s buf off (m + n) = memRead s buf off m ++ memRead s buf (off + m) n := by
  intro off m
  induction m generalizing off with
  | zero => simp [memRead_zero]
  | succ k ih =>
      have h1 : k + 1 + n = k + n + 1 := by omega
      rw [h1, memRead_succ, memRead_succ, ih (off + 1), List.cons_append]
      have h2 : off + 1 + k = off + (k + 1) := by omega
      rw [h2]

theorem memWrite_apply_out (s : Nat) (x : List Nat) :
    ∀ (buf : Nat → Nat) (off i : Nat), (∀ k < x.length, (off + k) % s ≠ i) →
    memWrite s buf off x i = buf i := by
  induction x with
  | nil => intro buf off i _; rfl
  | cons b rest ih =>
      intro buf off i h
      have h0 : off % s ≠ i := by
        have := h 0 (by simp)
        simpa using this
      have hrest : ∀ k < rest.length, (off + 1 + k) % s ≠ i := by
        intro k hk
        have hh := h (k + 1) (by simp; omega)
        have e : off + (k + 1) = off + 1 + k := by omega
        rwa [e] at hh
      show memWrite s (fun j => if j = off % s then b else buf j) (off + 1) rest i = buf i
      rw [ih _ (off + 1) i hrest]
      simp [Ne.symm h0]

theorem window_mod_ne {s a b : Nat} (hab : a < b) (h : b - a < s) : a % s ≠ b % s := by
  intro he
  have hdvd : s ∣ b - a := (Nat.modEq_iff_dvd' (le_of_lt hab)).mp he
  have hpos : 0 < b - a := by omega
  have := Nat.le_of_dvd hpos hdvd
  omega

theorem memRead_memWrite_self (s : Nat) (x : List Nat) :
    ∀ (buf : Nat → Nat) (off : Nat), x.length ≤ s →
    memRead s (memWrite s buf off x) off x.length = x := by
  induction x with
  | nil => intro buf off _; rfl
  | cons b rest ih =>
      intro buf off hlen
      show memRead s (memWrite s (fun j => if j = off % s then b else buf j) (off + 1) rest)
        off (rest.length + 1) = b :: rest
      rw [memRead_succ]
      refine congrArg₂ List.cons ?_ (ih _ (off + 1) (by simpa using Nat.le_of_succ_le hlen))
      rw [memWrite_apply_out]
      · simp
      · intro k hk
        refine Ne.symm (window_mod_ne (a := off) (b := off + 1 + k) (by omega) ?_)
        simp at hlen
        omega

theorem memRead_memWrite_out (s : Nat) (buf : Nat → Nat) (woff roff n : Nat) (x : List Nat)
    (h : ∀ k < x.length, ∀ j < n, (woff + k) % s ≠ (roff + j) % s) :
    memRead s (memWrite s buf woff x) roff n = memRead s buf roff n := by
  unfold memRead
  refine List.map_congr_left ?_
  intro j hj
  rw [memWrite_apply_out]
  intro k hk
  exact h k hk j (List.mem_range.mp hj)

theorem memRead_sub_size (s : Nat) (buf : Nat → Nat) (off n : Nat) (h : s ≤ off) :
    memRead s buf (off - s) n = memRead s buf off n := by
  unfold memRead
  refine List.map_congr_left ?_
  intro j _
  have e : off + j = off - s + j + s := by omega
  rw [e, Nat.add_mod_right]

/-! ## Accounting under well-formedness -/

theorem bytes_free_of_wf {rb : RB} (h : wf rb) :
    ringbuf_bytes_free rb = rb.buffer_size - (rb.head - rb.tail) := by
  obtain ⟨hC, htC, hth, hd, hW⟩ := h
  rw [ringbuf_bytes_free, if_pos hth, gsub_eq hd (by omega)]

theorem bytes_used_of_wf {rb : RB} (h : wf rb) :
    ringbuf_bytes_used rb = rb.head - rb.tail := by
  have hfree := bytes_free_of_wf h
  obtain ⟨hC, htC, hth, hd, hW⟩ := h
  rw [ringbuf_bytes_used, hfree, gsub_eq (by omega) (by omega)]
  omega

theorem contents_length (rb : RB) : (contents rb).length = rb.head - rb.tail :=
  memRead_length ..


/-! ## Abstraction lemmas: push and pop against list contents -/

theorem push_spec {rb : RB} (x : List Nat) (h : wf rb)
    (hfit : rb.head - rb.tail + x.length ≤ rb.buffer_size) :
    ∃ rb', ringbuf_push rb x = some rb' ∧ wf rb' ∧
      rb'.buffer_size = rb.buffer_size ∧ rb'.tail = rb.tail ∧
      rb'.block_on_full = rb.block_on_full ∧
      rb'.head - rb'.tail = rb.head - rb.tail + x.length ∧
      contents rb' = contents rb ++ x := by
  have hfree := bytes_free_of_wf h
  obtain ⟨hC, htC, hth, hd, hW⟩ := h
  have hhead : gadd rb.head x.length = rb.head + x.length := gadd_eq (by omega)
  have hguard : ¬(rb.block_on_full = true ∧ ringbuf_bytes_free rb < x.length) := by
    rw [hfree]; rintro ⟨-, hlt⟩; omega
  refine ⟨{ rb with buf := memWrite rb.buffer_size rb.buf rb.head x, head := gadd rb.head x.length }, by rw [ringbuf_push, if_neg hguard], ?_, rfl, rfl, rfl, ?_, ?_⟩
  · refine ⟨hC, htC, ?_, ?_, hW⟩
    · show rb.tail ≤ gadd rb.head x.length
      rw [hhead]; omega
    · show gadd rb.head x.length - rb.tail ≤ rb.buffer_size
      rw [hhead]; omega
  · show gadd rb.head x.length - rb.tail = rb.head - rb.tail + x.length
    rw [hhead]; omega
  · show memRead rb.buffer_size (memWrite rb.buffer_size rb.buf rb.head x) rb.tail
      (gadd rb.head x.length - rb.tail) = contents rb ++ x
    rw [hhead, show rb.head + x.length - rb.tail = (rb.head - rb.tail) + x.length from by omega,
      memRead_append, contents]
    refine congrArg₂ (· ++ ·) ?_ ?_
    · refine memRead_memWrite_out _ _ _ _ _ _ ?_
      intro k hk j hj
      exact Ne.symm (window_mod_ne (a := rb.tail + j) (b := rb.head + k) (by omega) (by omega))
    · rw [show rb.tail + (rb.head - rb.tail) = rb.head from by omega,
        memRead_memWrite_self _ _ _ _ (by omega)]

theorem pop_spec {rb : RB} (n : Nat) (h : wf rb) (hn : n ≤ rb.head - rb.tail) :
    ∃ rb', ringbuf_pop rb n = some ((contents rb).take n, rb') ∧ wf rb' ∧
      rb'.buffer_size = rb.buffer_size ∧ rb'.buf = rb.buf ∧
      rb'.block_on_full = rb.block_on_full ∧
      rb'.head - rb'.tail = rb.head - rb.tail - n ∧
      contents rb' = (contents rb).drop n := by
  have hused := bytes_used_of_wf h
  obtain ⟨hC, htC, hth, hd, hW⟩ := h
  have hguard : ¬(ringbuf_bytes_used rb < n) := by rw [hused]; omega
  have htn : gadd rb.tail n = rb.tail + n := gadd_eq (by omega)
  have hsplitc : contents rb =
      memRead rb.buffer_size rb.buf rb.tail n ++
      memRead rb.buffer_size rb.buf (rb.tail + n) (rb.head - rb.tail - n) := by
    rw [contents]
    nth_rewrite 1 [show rb.head - rb.tail = n + (rb.head - rb.tail - n) from by omega]
    rw [memRead_append]
  have htake : (contents rb).take n = memRead rb.buffer_size rb.buf rb.tail n := by
    rw [hsplitc, List.take_left' (memRead_length ..)]
  have hdrop : (contents rb).drop n =
      memRead rb.buffer_size rb.buf (rb.tail + n) (rb.head - rb.tail - n) := by
    rw [hsplitc, List.drop_left' (memRead_length ..)]
  by_cases hwrap : rb.buffer_size ≤ rb.tail + n
  · have hh : gsub rb.head rb.buffer_size = rb.head - rb.buffer_size :=
      gsub_eq (by omega) (by omega)
    have ht : gsub (gadd rb.tail n) rb.buffer_size = rb.tail + n - rb.buffer_size := by
      rw [htn]; exact gsub_eq (by omega) (by omega)
    refine ⟨{ rb with head := gsub rb.head rb.buffer_size, tail := gsub (gadd rb.tail n) rb.buffer_size }, ?_, ?_, rfl, rfl, rfl, ?_, ?_⟩
    · rw [ringbuf_pop, if_neg hguard]
      simp only [htn, if_pos hwrap, htake]
    · refine ⟨hC, ?_, ?_, ?_, hW⟩
      · show gsub (gadd rb.tail n) rb.buffer_size < rb.buffer_size
        rw [ht]; omega
      · show gsub (gadd rb.tail n) rb.buffer_size ≤ gsub rb.head rb.buffer_size
        rw [ht, hh]; omega
      · show gsub rb.head rb.buffer_size - gsub (gadd rb.tail n) rb.buffer_size ≤
          rb.buffer_size
        rw [ht, hh]; omega
    · show gsub rb.head rb.buffer_size - gsub (gadd rb.tail n) rb.buffer_size =
        rb.head - rb.tail - n
      rw [ht, hh]; omega
    · show memRead rb.buffer_size rb.buf (gsub (gadd rb.tail n) rb.buffer_size)
        (gsub rb.head rb.buffer_size - gsub (gadd rb.tail n) rb.buffer_size) =
        (contents rb).drop n
      rw [ht, hh, hdrop,
        show rb.head - rb.buffer_size - (rb.tail + n - rb.buffer_size)
          = rb.head - rb.tail - n from by omega,
        memRead_sub_size _ _ _ _ hwrap]
  · refine ⟨{ rb with tail := gadd rb.tail n }, ?_, ?_, rfl, rfl, rfl, ?_, ?_⟩
    · rw [ringbuf_pop, if_neg hguard]
      simp only [htn, if_neg hwrap, htake]
    · refine ⟨hC, ?_, ?_, ?_, hW⟩
      · show gadd rb.tail n < rb.buffer_size
        rw [htn]; omega
      · show gadd rb.tail n ≤ rb.head
        rw [htn]; omega
      · show rb.head - gadd rb.tail n ≤ rb.buffer_size
        rw [htn]; omega
    · show rb.head - gadd rb.tail n = rb.head - rb.tail - n
      rw [htn]; omega
    · show memRead rb.buffer_size rb.buf (gadd rb.tail n) (rb.head - gadd rb.tail n) =
        (contents rb).drop n
      rw [htn, hdrop, show rb.head - (rb.tail + n) = rb.head - rb.tail - n from by omega]

theorem contents_emptyRB (c : Nat) (b : Bool) (f : Nat → Nat) :
    contents (emptyRB c b f) = [] := rfl

theorem wf_emptyRB {c : Nat} (b : Bool) (f : Nat → Nat) (hc : 0 < c)
    (hW : 2 * c ≤ gsizeMod) : wf (emptyRB c b f) :=
  ⟨hc, hc, Nat.le_refl 0, by simp [emptyRB], hW⟩

theorem pushAll_spec (xs : List (List Nat)) :
    ∀ rb : RB, wf rb →
    rb.head - rb.tail + (xs.map List.length).sum ≤ rb.buffer_size →
    ∃ rb', pushAll rb xs = some rb' ∧ wf rb' ∧
      contents rb' = contents rb ++ xs.flatten := by
  induction xs with
  | nil => intro rb h _; exact ⟨rb, rfl, h, by simp⟩
  | cons x rest ih =>
      intro rb h hfit
      simp only [List.map_cons, List.sum_cons] at hfit
      obtain ⟨rb1, hpush, hwf1, hsz1, htl1, hbf1, hdiff1, hc1⟩ :=
        push_spec x h (by omega)
      obtain ⟨rb', hall, hwf', hc'⟩ := ih rb1 hwf1 (by rw [hdiff1, hsz1]; omega)
      refine ⟨rb', ?_, hwf', ?_⟩
      · rw [pushAll, List.foldlM_cons, hpush]
        simpa [pushAll] using hall
      · rw [hc', hc1]
        simp

theorem popAll_spec (xs : List (List Nat)) :
    ∀ rb : RB, wf rb → contents rb = xs.flatten →
    popAll rb (xs.map List.length) = some xs := by
  induction xs with
  | nil => intro rb _ _; rfl
  | cons x rest ih =>
      intro rb h hc
      have hlen : x.length ≤ rb.head - rb.tail := by
        have hl := contents_length rb
        rw [hc] at hl
        simp at hl
        omega
      obtain ⟨rb1, hpop, hwf1, -, -, -, -, hc1⟩ := pop_spec x.length h hlen
      have htake : (contents rb).take x.length = x := by
        rw [hc, List.flatten_cons, List.take_left' rfl]
      have hdrop : contents rb1 = rest.flatten := by
        rw [hc1, hc, List.flatten_cons, List.drop_left' rfl]
      rw [List.map_cons, popAll, hpop, htake, Option.some_bind, ih rb1 hwf1 hdrop,
        Option.map_some']

/-- C1: FIFO law — starting from an empty buffer of capacity `c`, any
sequence of pushes `x1, …, xn` of total length at most `c` with no
intervening pops, followed by pops of the matching lengths, returns
exactly `x1, …, xn` in order (for `n = 1` this is the round trip:
`push x` then `pop x.length` returns `x` unchanged). -/
theorem fifo_law (c : Nat) (b : Bool) (f : Nat → Nat) (xs : List (List Nat))
    (hc : 0 < c) (hW : 2 * c ≤ gsizeMod)
    (hsum : (xs.map List.length).sum ≤ c) :
    (pushAll (emptyRB c b f) xs).bind
      (fun rb => popAll rb (xs.map List.length)) = some xs := by
  obtain ⟨rb', hall, hwf', hc'⟩ :=
    pushAll_spec xs _ (wf_emptyRB b f hc hW) (by simpa [emptyRB] using hsum)
  rw [hall, Option.some_bind]
  exact popAll_spec xs rb' hwf' (by simpa using hc')

/-- Witness for C1 at a concrete input: capacity 16, pushes `[1,2]` then
`[3]`, pops of lengths 2 and 1 return `[1,2]` and `[3]`. -/
theorem fifo_law_witness :
    (pushAll (emptyRB 16 false (fun _ => 0)) [[1, 2], [3]]).bind
      (fun rb => popAll rb ([[1, 2], [3]].map List.length)) = some [[1, 2], [3]] :=
  fifo_law 16 false (fun _ => 0) [[1, 2], [3]] (by decide) (by decide) (by decide)

/-- C8: reserve/commit equivalence — for every starting state and byte
sequence `b`, `reserve b.length`, then writing `b` into the returned
view (the double-mapped window at the returned offset), then `commit`,
produces exactly the state `push b` produces (including the blocked
cases, which coincide). -/
theorem reserve_commit_push_equiv (rb : RB) (b : List Nat) :
    (ringbuf_reserve rb b.length).map
      (fun p => ringbuf_commit
        { p.2 with buf := memWrite p.2.buffer_size p.2.buf p.1 b }) =
    ringbuf_push rb b := by
  rw [ringbuf_reserve, ringbuf_push]
  by_cases hg : rb.block_on_full = true ∧ ringbuf_bytes_free rb < b.length
  · rw [if_pos hg, if_pos hg]; rfl
  · rw [if_neg hg, if_neg hg, Option.map_some']
    rfl

/-- C10: `ringbuf_commit` only signals — it leaves `head`, `tail`,
`buffer_size`, the stored bytes, and hence the logical contents
unchanged; there is no partial-commit state change of any kind. -/
theorem commit_frame (rb : RB) :
    (ringbuf_commit rb).head = rb.head ∧ (ringbuf_commit rb).tail = rb.tail ∧
    (ringbuf_commit rb).buffer_size = rb.buffer_size ∧
    (ringbuf_commit rb).buf = rb.buf ∧
    contents (ringbuf_commit rb) = contents rb :=
  ⟨rfl, rfl, rfl, rfl, rfl⟩

/-- C4 (failing input): on an empty capacity-16 buffer with
`block_on_full = false`, a push of 20 bytes does not advance `tail` by
4 and does not leave a full buffer, contrary to the claimed eviction
policy: the code leaves `tail = 0`, `head = 20`, `is_full` returns
`false`, and the cursor invariant is broken. -/
theorem push_overflow_bug :
    (ringbuf_push (emptyRB 16 false (fun _ => 0)) (List.range 20)).map
      (fun rb => (rb.head, rb.tail, ringbuf_is_full rb)) = some (20, 0, false) ∧
    ¬ invariant ((ringbuf_push (emptyRB 16 false (fun _ => 0))
      (List.range 20)).getD (emptyRB 16 false (fun _ => 0))) := by
  constructor <;> decide

/-- C5 (failing input): a capacity-16 buffer holding one byte
(`head = 1`, `tail = 0`) satisfies the cursor invariant and has
`bytes_used = 1`, yet `ringbuf_is_empty` returns `true` (its body
compares `bytes_free` with itself); the `is_full` half of the claim
holds, as `is_full` is literally `bytes_free == 0`. -/
theorem is_empty_bug :
    invariant rbOneByte ∧ ringbuf_bytes_used rbOneByte = 1 ∧
    ringbuf_is_empty rbOneByte = true ∧ ringbuf_is_full rbOneByte = false := by
  refine ⟨?_, ?_, ?_, ?_⟩ <;> decide

/-- C6 (failing input): a capacity-16 buffer holding a single byte
(`bytes_used = 1`): `timed_pop` of size 2 does not wait for
`bytes_used ≥ 2` and does not time out — it copies 2 bytes at once and
advances `tail` to 2 past `head = 1`, breaking the cursor invariant. -/
theorem timed_pop_underflow_bug :
    ringbuf_bytes_used rbOneByte = 1 ∧
    (ringbuf_timed_pop rbOneByte 2).map
      (fun p => (p.1, p.2.head, p.2.tail)) = some ([0, 1], 1, 2) ∧
    ¬ invariant (((ringbuf_timed_pop rbOneByte 2).map Prod.snd).getD rbOneByte) := by
  refine ⟨?_, ?_, ?_⟩ <;> decide

/-- C9 (failing input): `ringbuf_direct_copy` acquires the two mutexes
in call-argument order (`src` first, then `dst`), not in an order fixed
by buffer identity: splicing from buffer 0 to buffer 1 and splicing
from buffer 1 to buffer 0 acquire the same two locks in opposite
orders, which is the lock-order reversal the claim rules out. -/
theorem direct_copy_lock_order_is_argument_order :
    direct_copy_lock_order 0 1 = [0, 1] ∧ direct_copy_lock_order 1 0 = [1, 0] ∧
    direct_copy_lock_order 0 1 ≠ direct_copy_lock_order 1 0 := by
  refine ⟨rfl, rfl, ?_⟩; decide

/-- C2 (counterexample): a full capacity-16 buffer satisfies the cursor
invariant, yet `ringbuf_move_head` by one more byte — an operation of
the transfer API applied with an argument the claim allows — yields
`head − tail = 17 > 16`, falsifying unconditional preservation. -/
theorem cursor_invariant_counterexample :
    invariant rbFull16 ∧ ¬ invariant (ringbuf_move_head rbFull16 1) := by
  constructor <;> decide

/-- C3 (counterexample): on an empty non-blocking capacity-16 buffer a
push of 17 bytes (size > capacity) is not rejected and does not leave
the state unchanged: it copies all 17 bytes (physical byte 0 ends up
holding byte 16 of the source) and advances `head` to 17. -/
theorem oversized_push_mutates :
    (ringbuf_push rb99 (List.range 17)).map
      (fun rb => (rb.head, rb.buf 0)) = some (17, 16) ∧
    rb99.head = 0 ∧ rb99.buf 0 = 99 := by
  refine ⟨?_, rfl, rfl⟩; decide

/-- C7 (counterexample): a request of exactly one page (4096 bytes,
page size 4096) is not rounded up to two pages, and a request of 0
bytes yields a zero-sized buffer, falsifying "always at least two
pages" and "positive multiple of the page size". -/
theorem new_size_counterexample :
    ringbuf_new_size 4096 4096 = 4096 ∧
    ¬ (2 * 4096 ≤ ringbuf_new_size 4096 4096) ∧
    ringbuf_new_size 4096 0 = 0 ∧ ¬ (0 < ringbuf_new_size 4096 0) := by
  refine ⟨rfl, ?_, rfl, ?_⟩ <;> decide

/-! ## Invariant preservation machinery -/

theorem invariant_of_wf {rb : RB} (h : wf rb) : invariant rb :=
  ⟨h.2.2.1, h.2.2.2.1⟩

theorem wf_advance_head {rb : RB} (n : Nat) (h : wf rb)
    (hfit : rb.head - rb.tail + n ≤ rb.buffer_size) :
    wf { rb with head := gadd rb.head n } := by
  obtain ⟨hC, htC, hth, hd, hW⟩ := h
  have hh : gadd rb.head n = rb.head + n := gadd_eq (by omega)
  refine ⟨hC, htC, ?_, ?_, hW⟩
  · show rb.tail ≤ gadd rb.head n
    rw [hh]; omega
  · show gadd rb.head n - rb.tail ≤ rb.buffer_size
    rw [hh]; omega

theorem timed_pop_eq_pop {rb : RB} {n : Nat} (hne : ¬ rb.tail = rb.head)
    (h : ¬ ringbuf_bytes_used rb < n) :
    ringbuf_timed_pop rb n = ringbuf_pop rb n := by
  rw [ringbuf_timed_pop, ringbuf_pop, if_neg hne, if_neg h]

theorem move_tail_eq_pop (rb : RB) (n : Nat) :
    ringbuf_move_tail rb n = (ringbuf_pop rb n).map Prod.snd := by
  rw [ringbuf_move_tail, ringbuf_pop]
  by_cases hg : ringbuf_bytes_used rb < n
  · rw [if_pos hg, if_pos hg]; rfl
  · rw [if_neg hg, if_neg hg]
    by_cases hw : rb.buffer_size ≤ gadd rb.tail n
    · simp only [if_pos hw, Option.map_some']
    · simp only [if_neg hw, Option.map_some']

theorem direct_copy_eq (s d : RB) (n : Nat) (h1 : ¬ s.tail = s.head)
    (h2 : ¬(d.block_on_full = true ∧ ringbuf_bytes_free d < n)) :
    ringbuf_direct_copy s d n =
      some (if s.buffer_size ≤ gadd s.tail n
              then { s with head := gsub s.head s.buffer_size,
                            tail := gsub (gadd s.tail n) s.buffer_size }
              else { s with tail := gadd s.tail n },
            { d with buf := memWrite d.buffer_size d.buf d.head
                       (memRead s.buffer_size s.buf s.tail n),
                     head := gadd d.head n }) := by
  rw [ringbuf_direct_copy, if_neg h1, if_neg h2]

/-- C2 (amended): the cursor invariant `0 ≤ head − tail ≤ capacity` is
preserved by every operation of the transfer API on a well-formed state
provided head-advancing operations (`push`, `reserve`, `move_head`,
splice into `dst`) are given a size within `bytes_free` and
`timed_pop` (and splice out of `src`) a size within `bytes_used`;
`pop`, `move_tail`, `commit` and `reset` preserve it for every
argument.  (The original unconditional claim fails: `move_head`,
non-blocking `push`/`reserve` and `timed_pop` accept sizes beyond those
bounds and then break the invariant.) -/
theorem cursor_invariant_preservation :
    (∀ (rb : RB) (x : List Nat), wf rb → x.length ≤ ringbuf_bytes_free rb →
      invariant ((ringbuf_push rb x).getD rb)) ∧
    (∀ (rb : RB) (n : Nat), wf rb →
      invariant (((ringbuf_pop rb n).map Prod.snd).getD rb)) ∧
    (∀ (rb : RB) (n : Nat), wf rb → n ≤ ringbuf_bytes_used rb →
      invariant (((ringbuf_timed_pop rb n).map Prod.snd).getD rb)) ∧
    (∀ (rb : RB) (n : Nat), wf rb → n ≤ ringbuf_bytes_free rb →
      invariant (((ringbuf_reserve rb n).map Prod.snd).getD rb)) ∧
    (∀ rb : RB, invariant rb → invariant (ringbuf_commit rb)) ∧
    (∀ (rb : RB) (n : Nat), wf rb → n ≤ ringbuf_bytes_free rb →
      invariant (ringbuf_move_head rb n)) ∧
    (∀ (rb : RB) (n : Nat), wf rb → invariant ((ringbuf_move_tail rb n).getD rb)) ∧
    (∀ rb : RB, invariant (ringbuf_reset rb)) ∧
    (∀ (s d : RB) (n : Nat), wf s → wf d → n ≤ ringbuf_bytes_used s →
      n ≤ ringbuf_bytes_free d →
      invariant ((ringbuf_direct_copy s d n).getD (s, d)).1 ∧
      invariant ((ringbuf_direct_copy s d n).getD (s, d)).2) := by
  have hpop : ∀ (rb : RB) (n : Nat), wf rb →
      invariant (((ringbuf_pop rb n).map Prod.snd).getD rb) := by
    intro rb n h
    by_cases hn : n ≤ rb.head - rb.tail
    · obtain ⟨rb', heq, hwf', -⟩ := pop_spec n h hn
      rw [heq, Option.map_some', Option.getD_some]
      exact invariant_of_wf hwf'
    · rw [ringbuf_pop, if_pos (by rw [bytes_used_of_wf h]; omega)]
      exact invariant_of_wf h
  refine ⟨?_, hpop, ?_, ?_, fun rb h => h, ?_, ?_, ?_, ?_⟩
  · intro rb x h hx
    rw [bytes_free_of_wf h] at hx
    obtain ⟨rb', heq, hwf', -⟩ := push_spec x h (by have := h.2.2.2.1; omega)
    rw [heq, Option.getD_some]
    exact invariant_of_wf hwf'
  · intro rb n h hn
    rw [bytes_used_of_wf h] at hn
    by_cases hne : rb.tail = rb.head
    · rw [ringbuf_timed_pop, if_pos hne]
      exact invariant_of_wf h
    · rw [timed_pop_eq_pop hne (by rw [bytes_used_of_wf h]; omega)]
      exact hpop rb n h
  · intro rb n h hn
    rw [bytes_free_of_wf h] at hn
    rw [ringbuf_reserve]
    by_cases hg : rb.block_on_full = true ∧ ringbuf_bytes_free rb < n
    · rw [if_pos hg]
      exact invariant_of_wf h
    · rw [if_neg hg, Option.map_some', Option.getD_some]
      exact invariant_of_wf (wf_advance_head n h (by have := h.2.2.2.1; omega))
  · intro rb n h hn
    rw [bytes_free_of_wf h] at hn
    exact invariant_of_wf (wf_advance_head n h (by have := h.2.2.2.1; omega))
  · intro rb n h
    rw [move_tail_eq_pop]
    exact hpop rb n h
  · intro rb
    refine ⟨Nat.le_refl 0, ?_⟩
    show (0 : Nat) - 0 ≤ rb.buffer_size
    simp
  · intro s d n hs hd hns hnd
    rw [bytes_used_of_wf hs] at hns
    rw [bytes_free_of_wf hd] at hnd
    by_cases hne : s.tail = s.head
    · rw [ringbuf_direct_copy, if_pos hne]
      exact ⟨invariant_of_wf hs, invariant_of_wf hd⟩
    · have h2 : ¬(d.block_on_full = true ∧ ringbuf_bytes_free d < n) := by
        rw [bytes_free_of_wf hd]; rintro ⟨-, hlt⟩; omega
      rw [direct_copy_eq s d n hne h2, Option.getD_some]
      constructor
      · show invariant (if s.buffer_size ≤ gadd s.tail n then _ else _)
        obtain ⟨hC, htC, hth, hdd, hW⟩ := hs
        have htn : gadd s.tail n = s.tail + n := gadd_eq (by omega)
        by_cases hw : s.buffer_size ≤ gadd s.tail n
        · rw [if_pos hw]
          rw [htn] at hw
          have hh : gsub s.head s.buffer_size = s.head - s.buffer_size :=
            gsub_eq (by omega) (by omega)
          have ht : gsub (gadd s.tail n) s.buffer_size = s.tail + n - s.buffer_size := by
            rw [htn]; exact gsub_eq (by omega) (by omega)
          constructor
          · show gsub (gadd s.tail n) s.buffer_size ≤ gsub s.head s.buffer_size
            rw [hh, ht]; omega
          · show gsub s.head s.buffer_size - gsub (gadd s.tail n) s.buffer_size ≤
              s.buffer_size
            rw [hh, ht]; omega
        · rw [if_neg hw]
          constructor
          · show gadd s.tail n ≤ s.head
            rw [htn]; omega
          · show s.head - gadd s.tail n ≤ s.buffer_size
            rw [htn]; omega
      · exact invariant_of_wf (wf_advance_head n hd (by have := hd.2.2.2.1; omega))

/-- Witness for C2 at a concrete input: pushing one byte onto an empty
capacity-16 buffer preserves the cursor invariant. -/
theorem cursor_invariant_preservation_witness :
    invariant ((ringbuf_push (emptyRB 16 false (fun _ => 0)) [7]).getD
      (emptyRB 16 false (fun _ => 0))) :=
  cursor_invariant_preservation.1 (emptyRB 16 false (fun _ => 0)) [7]
    (wf_emptyRB false (fun _ => 0) (by decide) (by decide)) (by decide)

/-- C3 (amended): a request with `size > capacity` is never rejected
with an error — no `InvalidArgument` path exists.  In blocking mode an
oversized `push` waits on `bytes_free ≥ size`, which no well-formed
state can ever satisfy, so the call never proceeds; an oversized `pop`
likewise waits forever on `bytes_used ≥ size`; and in non-blocking mode
an oversized `push` goes ahead, copying the bytes and advancing `head`
(mutating the state). -/
theorem oversized_request_behavior :
    (∀ (rb : RB) (x : List Nat), wf rb → rb.block_on_full = true →
      rb.buffer_size < x.length → ringbuf_push rb x = none) ∧
    (∀ (rb : RB) (n : Nat), wf rb → rb.buffer_size < n →
      ringbuf_pop rb n = none) ∧
    (∀ (rb : RB) (x : List Nat), rb.block_on_full = false →
      ringbuf_push rb x =
        some { rb with buf := memWrite rb.buffer_size rb.buf rb.head x,
                       head := gadd rb.head x.length }) := by
  refine ⟨?_, ?_, ?_⟩
  · intro rb x h hb hlen
    rw [ringbuf_push, if_pos ⟨hb, by rw [bytes_free_of_wf h]; omega⟩]
  · intro rb n h hn
    rw [ringbuf_pop, if_pos (by rw [bytes_used_of_wf h]; have := h.2.2.2.1; omega)]
  · intro rb x hb
    rw [ringbuf_push, if_neg (by rw [hb]; simp)]

/-- Witness for C3 at a concrete input: on an empty blocking
capacity-16 buffer, a push of 17 bytes never proceeds. -/
theorem oversized_request_behavior_witness :
    ringbuf_push (emptyRB 16 true (fun _ => 0)) (List.replicate 17 5) = none :=
  oversized_request_behavior.1 (emptyRB 16 true (fun _ => 0)) (List.replicate 17 5)
    (wf_emptyRB true (fun _ => 0) (by decide) (by decide)) rfl (by decide)

/-- C7 (amended): for a positive page size, the size chosen by
`ringbuf_new` is always a multiple of the page size and never smaller
than the request; a request that is already a page multiple — including
zero and exactly one page — is used unchanged (so the result is neither
always positive nor always at least two pages); a non-multiple below
one page becomes exactly two pages; and a non-multiple above one page
is rounded up to the next page multiple. -/
theorem new_size_spec (page size : Nat) (hp : 0 < page) :
    ringbuf_new_size page size % page = 0 ∧
    size ≤ ringbuf_new_size page size ∧
    (size % page = 0 → ringbuf_new_size page size = size) ∧
    (size % page ≠ 0 → size < page → ringbuf_new_size page size = 2 * page) ∧
    (size % page ≠ 0 → page ≤ size →
      ringbuf_new_size page size < size + page) := by
  unfold ringbuf_new_size
  by_cases hm : size % page = 0
  · rw [if_neg (by simpa using hm)]
    exact ⟨hm, Nat.le_refl size, fun _ => rfl,
      fun h => absurd hm h, fun h => absurd hm h⟩
  · rw [if_pos hm]
    by_cases hs : size < page
    · rw [if_pos hs]
      exact ⟨Nat.mul_mod_left 2 page, by omega, fun h => absurd h hm,
        fun _ _ => rfl, fun _ hps => by omega⟩
    · rw [if_neg hs]
      have h1 : page * (size / page) + size % page = size := Nat.div_add_mod size page
      have h2 : size % page < page := Nat.mod_lt _ hp
      have h3 : (size / page + 1) * page = page * (size / page) + page := by ring
      refine ⟨Nat.mul_mod_left _ page, by rw [h3]; omega, fun h => absurd h hm,
        fun _ hlt => absurd hlt hs, fun _ _ => by rw [h3]; omega⟩

/-- Witness for C7 at a concrete input: page size 4096, request 5000 —
the chosen size is a page multiple, at least 5000, and (5000 not being
a page multiple and above one page) below 5000 + 4096. -/
theorem new_size_spec_witness :
    ringbuf_new_size 4096 5000 % 4096 = 0 ∧
    5000 ≤ ringbuf_new_size 4096 5000 ∧
    (5000 % 4096 = 0 → ringbuf_new_size 4096 5000 = 5000) ∧
    (5000 % 4096 ≠ 0 → 5000 < 4096 → ringbuf_new_size 4096 5000 = 2 * 4096) ∧
    (5000 % 4096 ≠ 0 → 4096 ≤ 5000 →
      ringbuf_new_size 4096 5000 < 5000 + 4096) :=
  new_size_spec 4096 5000 (by decide)
